import Mathlib

/-!
Shallow embedding of the operations module `src/operations/utils.ts` of the
stacks.js repository, and proofs about it.

The module contains four subsystems, each embedded below from the source:

* the transaction byte-size estimator (`inputBytes`, `outputBytes`,
  `transactionBytes`, `estimateTXBytes`),
* the UTXO funder `addUTXOsToFund`,
* the base-40 decoder `decodeB40` (built on bn.js arithmetic and its
  `toString(16, 2)` rendering),
* the signing driver `signInputs`.

Numbers: every quantity the module computes with (satoshi values, fee rates,
byte counts) is integral in all uses of the module, and the module performs
no division, so JavaScript numbers are embedded as `Int` (byte sizes as
`Nat`).  Mutation (the transaction builder, the caller's `utxos` array) is
embedded by explicit state passing: functions return the updated state.
Thrown `NotEnoughFundsError`s become `Except.error` carrying the
`leftToFund` amount the error is constructed with.
-/

namespace StacksOps

/-! ### Byte-size estimator constants (lines 25-29 of the source) -/

def TX_EMPTY_SIZE : Nat := 4 + 1 + 1 + 4

def TX_INPUT_BASE : Nat := 32 + 4 + 1 + 4

def TX_INPUT_PUBKEYHASH : Nat := 107

def TX_OUTPUT_BASE : Nat := 8 + 1

def TX_OUTPUT_PUBKEYHASH : Nat := 25

/-- A transaction input as the module reads it: the outpoint being spent
(filled in by `TransactionBuilder.addInput`) and the length of the
unlocking script (`input.script.length`; 0 until the input is signed). -/
structure TxInput where
  tx_hash : String
  tx_output_n : Nat
  scriptLength : Nat
deriving DecidableEq, Repr

/-- A transaction output: its value in satoshis and locking script length. -/
structure TxOutput where
  value : Int
  scriptLength : Nat
deriving DecidableEq, Repr

/-- The transaction inside a `TransactionBuilder` (the source reaches it
through `getTransactionInsideBuilder`); the builder itself carries no other
state the module looks at, so the builder is embedded as this transaction. -/
structure Transaction where
  ins : List TxInput
  outs : List TxOutput
deriving DecidableEq, Repr

/-- `TransactionBuilder.addInput(txHash, outputN)` appends an input whose
script is empty. -/
def Transaction.addInput (tx : Transaction) (hash : String) (n : Nat) : Transaction :=
  { tx with ins := tx.ins ++ [⟨hash, n, 0⟩] }

/-- `inputBytes` of the source.  The argument is the script length of a
txPoint, `none` standing for a `null` dummy entry; the source's test
`input && input.script && input.script.length > 0` collapses to the
`some len, 0 < len` case. -/
def inputBytes : Option Nat → Nat
  | some len => if 0 < len then TX_INPUT_BASE + len else TX_INPUT_BASE + TX_INPUT_PUBKEYHASH
  | none => TX_INPUT_BASE + TX_INPUT_PUBKEYHASH

/-- `outputBytes` of the source, same convention as `inputBytes`. -/
def outputBytes : Option Nat → Nat
  | some len => if 0 < len then TX_OUTPUT_BASE + len else TX_OUTPUT_BASE + TX_OUTPUT_PUBKEYHASH
  | none => TX_OUTPUT_BASE + TX_OUTPUT_PUBKEYHASH

/-- `transactionBytes` of the source: empty-transaction overhead plus the
two `reduce` sums over inputs and outputs. -/
def transactionBytes (inputs outputs : List (Option Nat)) : Nat :=
  TX_EMPTY_SIZE + inputs.foldl (fun a x => a + inputBytes x) 0
    + outputs.foldl (fun a x => a + outputBytes x) 0

/-- `estimateTXBytes` of the source: the current inputs/outputs followed by
`additionalInputs` and `additionalOutputs` `null` placeholders. -/
def estimateTXBytes (txIn : Transaction) (additionalInputs additionalOutputs : Nat) : Nat :=
  let dummyInputs : List (Option Nat) := List.replicate additionalInputs none
  let dummyOutputs : List (Option Nat) := List.replicate additionalOutputs none
  let inputs := txIn.ins.map (fun i => some i.scriptLength) ++ dummyInputs
  let outputs := txIn.outs.map (fun o => some o.scriptLength) ++ dummyOutputs
  transactionBytes inputs outputs

theorem foldl_add_map {α : Type} (f : α → Nat) (l : List α) (init : Nat) :
    l.foldl (fun a x => a + f x) init = init + (l.map f).sum := by
  induction l generalizing init with
  | nil => simp
  | cons x xs ih => simp [List.foldl_cons, ih]; omega

/-- Adding placeholder entries always adds the standard pay-to-pubkey-hash
estimate per entry, whatever the existing transaction looks like. -/
theorem estimateTXBytes_eq (tx : Transaction) (a b : Nat) :
    estimateTXBytes tx a b = estimateTXBytes tx 0 0
      + a * (TX_INPUT_BASE + TX_INPUT_PUBKEYHASH)
      + b * (TX_OUTPUT_BASE + TX_OUTPUT_PUBKEYHASH) := by
  simp only [estimateTXBytes, transactionBytes, foldl_add_map, List.map_append,
    List.sum_append, List.map_replicate, List.sum_replicate, List.replicate_zero,
    List.append_nil, smul_eq_mul]
  simp [inputBytes, outputBytes]
  ring

/-- C5: for every transaction whose existing inputs and outputs are
scriptless placeholders (script length 0) and all counts `a`, `b`, the
estimated size grows over the `(0, 0)` estimate by exactly
`a * (41 + 107) + b * (9 + 25)`; each additional placeholder input
(resp. output) contributes the standard pay-to-pubkey-hash estimate
`41 + 107` (resp. `9 + 25`). -/
theorem estimateTXBytes_delta (tx : Transaction) (a b : Nat)
    (hins : ∀ i ∈ tx.ins, i.scriptLength = 0)
    (houts : ∀ o ∈ tx.outs, o.scriptLength = 0) :
    (estimateTXBytes tx a b : Int) - estimateTXBytes tx 0 0
        = a * (41 + 107) + b * (9 + 25)
    ∧ estimateTXBytes tx (a + 1) b = estimateTXBytes tx a b + (41 + 107)
    ∧ estimateTXBytes tx a (b + 1) = estimateTXBytes tx a b + (9 + 25) := by
  refine ⟨?_, ?_, ?_⟩
  · rw [estimateTXBytes_eq tx a b]
    simp [TX_INPUT_BASE, TX_INPUT_PUBKEYHASH, TX_OUTPUT_BASE, TX_OUTPUT_PUBKEYHASH]
    ring
  · rw [estimateTXBytes_eq tx (a + 1) b, estimateTXBytes_eq tx a b]
    simp [TX_INPUT_BASE, TX_INPUT_PUBKEYHASH, TX_OUTPUT_BASE, TX_OUTPUT_PUBKEYHASH]
    ring
  · rw [estimateTXBytes_eq tx a (b + 1), estimateTXBytes_eq tx a b]
    simp [TX_INPUT_BASE, TX_INPUT_PUBKEYHASH, TX_OUTPUT_BASE, TX_OUTPUT_PUBKEYHASH]
    ring

/-- A concrete transaction used by witnesses: one scriptless input, one
scriptless output. -/
def txOneIn : Transaction :=
  ⟨[⟨"aa", 0, 0⟩], [⟨11000, 0⟩]⟩

theorem estimateTXBytes_delta_witness :
    (estimateTXBytes txOneIn 2 3 : Int) - estimateTXBytes txOneIn 0 0
        = 2 * (41 + 107) + 3 * (9 + 25)
    ∧ estimateTXBytes txOneIn (2 + 1) 3 = estimateTXBytes txOneIn 2 3 + (41 + 107)
    ∧ estimateTXBytes txOneIn 2 (3 + 1) = estimateTXBytes txOneIn 2 3 + (9 + 25) :=
  estimateTXBytes_delta txOneIn 2 3 (by decide) (by decide)

/-! ### UTXO funder (`addUTXOsToFund`, lines 133-178 of the source) -/

/-- A UTXO as the funder consumes it (field names as in the source). -/
structure UTXO where
  value : Int
  tx_hash : String
  tx_output_n : Nat
deriving DecidableEq, Repr

/-- The observable outcome of one `addUTXOsToFund` call: the transaction
builder (always handed back mutated), the contents of the caller's `utxos`
array after the call (the source sorts that array in place in the
no-sufficient-UTXO branch; recursive calls receive `utxos.slice(1)`, a
fresh copy, so only the top-level sort is visible to the caller), and
either the returned change or the `NotEnoughFundsError`'s amount. -/
structure FundResult where
  txB : Transaction
  utxos : List UTXO
  result : Except Int Int

/-- The in-place `utxos.sort((a, b) => b.value - a.value)`: descending by
value, stable (JavaScript `Array.prototype.sort` is stable). -/
def UTXO.descLe (a b : UTXO) : Prop := b.value ≤ a.value

/-- The `goodUtxos.sort((a, b) => a.value - b.value)`: ascending by value. -/
def UTXO.ascLe (a b : UTXO) : Prop := a.value ≤ b.value

instance : DecidableRel UTXO.descLe := fun a b =>
  inferInstanceAs (Decidable (b.value ≤ a.value))

instance : DecidableRel UTXO.ascLe := fun a b =>
  inferInstanceAs (Decidable (a.value ≤ b.value))

instance : IsTotal UTXO UTXO.descLe := ⟨fun a b => le_total b.value a.value⟩

instance : IsTotal UTXO UTXO.ascLe := ⟨fun a b => le_total a.value b.value⟩

instance : IsTrans UTXO UTXO.descLe := ⟨fun _ _ _ hab hbc => le_trans hbc hab⟩

instance : IsTrans UTXO UTXO.ascLe := ⟨fun _ _ _ hab hbc => le_trans hab hbc⟩

/-- The marginal fee of one more input, computed at the head of every
`addUTXOsToFund` call:
`feeRate * (estimateTXBytes(txB, 1, 0) - estimateTXBytes(txB, 0, 0))`. -/
def newFees (txB : Transaction) (feeRate : Int) : Int :=
  feeRate * ((estimateTXBytes txB 1 0 : Int) - (estimateTXBytes txB 0 0 : Int))

/-- The byte-size delta of one extra input is 148 whatever the transaction
holds, so the marginal fee is `feeRate * 148` at every recursion depth. -/
theorem newFees_eq (txB : Transaction) (feeRate : Int) :
    newFees txB feeRate = feeRate * 148 := by
  unfold newFees
  rw [estimateTXBytes_eq txB 1 0]
  simp [TX_INPUT_BASE, TX_INPUT_PUBKEYHASH]

/-- The funding threshold: `amountToFund`, plus `newFees` when
`fundNewFees` is set. -/
def utxoThreshhold (txB : Transaction) (amountToFund feeRate : Int) (fundNewFees : Bool) : Int :=
  if fundNewFees then amountToFund + newFees txB feeRate else amountToFund

/-- `addUTXOsToFund` of the source, as a state-passing function.  Branches
in source order: empty pool throws; a sufficient UTXO (value at least the
threshold) of minimum value is selected from the ascending sort of the
filtered pool; otherwise the pool itself is sorted descending in place,
the largest UTXO must at least cover its own marginal fee, and the call
recurses on the remainder of the sorted pool with the reduced target. -/
def addUTXOsToFund (txB : Transaction) (utxos : List UTXO)
    (amountToFund feeRate : Int) (fundNewFees : Bool) : FundResult :=
  if h : utxos = [] then
    ⟨txB, utxos, .error amountToFund⟩
  else
    match List.insertionSort UTXO.ascLe
        (utxos.filter (fun u => decide (utxoThreshhold txB amountToFund feeRate fundNewFees ≤ u.value))) with
    | selected :: _ =>
      let change := if fundNewFees
        then selected.value - amountToFund - newFees txB feeRate
        else selected.value - amountToFund
      ⟨txB.addInput selected.tx_hash selected.tx_output_n, utxos, .ok change⟩
    | [] =>
      match hs : List.insertionSort UTXO.descLe utxos with
      | [] =>
        absurd (List.length_eq_zero.mp
          (by rw [← (List.perm_insertionSort UTXO.descLe utxos).length_eq, hs]; rfl)) h
      | largest :: rest =>
        if newFees txB feeRate ≥ largest.value then
          ⟨txB, largest :: rest, .error amountToFund⟩
        else
          let remainToFund := if fundNewFees
            then amountToFund - largest.value + newFees txB feeRate
            else amountToFund - largest.value
          let r := addUTXOsToFund (txB.addInput largest.tx_hash largest.tx_output_n)
            rest remainToFund feeRate fundNewFees
          ⟨r.txB, largest :: rest, r.result⟩
termination_by utxos.length
decreasing_by
  have hl := (List.perm_insertionSort UTXO.descLe utxos).length_eq
  rw [hs] at hl
  simp at hl
  omega

/-! ### Branch equations and basic facts for `addUTXOsToFund` -/

theorem fund_nil (txB : Transaction) (amt fr : Int) (fnf : Bool) :
    addUTXOsToFund txB [] amt fr fnf = ⟨txB, [], .error amt⟩ := by
  rw [addUTXOsToFund]
  rfl

theorem fund_good (txB : Transaction) (utxos : List UTXO) (amt fr : Int) (fnf : Bool)
    (selected : UTXO) (tl : List UTXO) (hne : utxos ≠ [])
    (hgood : List.insertionSort UTXO.ascLe
        (utxos.filter (fun u => decide (utxoThreshhold txB amt fr fnf ≤ u.value)))
      = selected :: tl) :
    addUTXOsToFund txB utxos amt fr fnf =
      ⟨txB.addInput selected.tx_hash selected.tx_output_n, utxos,
       .ok (if fnf then selected.value - amt - newFees txB fr else selected.value - amt)⟩ := by
  rw [addUTXOsToFund]
  simp only [dif_neg hne, hgood]

theorem fund_fee_fail (txB : Transaction) (utxos : List UTXO) (amt fr : Int) (fnf : Bool)
    (largest : UTXO) (rest : List UTXO) (hne : utxos ≠ [])
    (hnogood : List.insertionSort UTXO.ascLe
        (utxos.filter (fun u => decide (utxoThreshhold txB amt fr fnf ≤ u.value))) = [])
    (hsort : List.insertionSort UTXO.descLe utxos = largest :: rest)
    (hfee : largest.value ≤ newFees txB fr) :
    addUTXOsToFund txB utxos amt fr fnf = ⟨txB, largest :: rest, .error amt⟩ := by
  rw [addUTXOsToFund]
  simp only [dif_neg hne, hnogood]
  split
  · next heq => rw [hsort] at heq; exact absurd heq (by simp)
  · next l r heq =>
    rw [hsort] at heq
    obtain ⟨h1, h2⟩ := List.cons.injEq .. ▸ heq
    subst h1; subst h2
    rw [if_pos (show newFees txB fr ≥ largest.value from hfee)]

theorem fund_consume (txB : Transaction) (utxos : List UTXO) (amt fr : Int) (fnf : Bool)
    (largest : UTXO) (rest : List UTXO) (hne : utxos ≠ [])
    (hnogood : List.insertionSort UTXO.ascLe
        (utxos.filter (fun u => decide (utxoThreshhold txB amt fr fnf ≤ u.value))) = [])
    (hsort : List.insertionSort UTXO.descLe utxos = largest :: rest)
    (hfee : newFees txB fr < largest.value) :
    addUTXOsToFund txB utxos amt fr fnf =
      ⟨(addUTXOsToFund (txB.addInput largest.tx_hash largest.tx_output_n) rest
          (if fnf then amt - largest.value + newFees txB fr else amt - largest.value)
          fr fnf).txB,
       largest :: rest,
       (addUTXOsToFund (txB.addInput largest.tx_hash largest.tx_output_n) rest
          (if fnf then amt - largest.value + newFees txB fr else amt - largest.value)
          fr fnf).result⟩ := by
  rw [addUTXOsToFund]
  simp only [dif_neg hne, hnogood]
  split
  · next heq => rw [hsort] at heq; exact absurd heq (by simp)
  · next l r heq =>
    rw [hsort] at heq
    obtain ⟨h1, h2⟩ := List.cons.injEq .. ▸ heq
    subst h1; subst h2
    rw [if_neg (not_le.mpr hfee)]

theorem insertionSort_eq_nil_iff {α : Type} (r : α → α → Prop) [DecidableRel r] (l : List α) :
    List.insertionSort r l = [] ↔ l = [] := by
  constructor
  · intro h
    have hl := (List.perm_insertionSort r l).length_eq
    rw [h] at hl
    exact List.length_eq_zero.mp hl.symm
  · intro h
    subst h
    rfl

/-- The filtered-then-sorted `goodUtxos` list is empty exactly when no UTXO
reaches the threshold. -/
theorem good_nil_iff (txB : Transaction) (utxos : List UTXO) (amt fr : Int) (fnf : Bool) :
    List.insertionSort UTXO.ascLe
        (utxos.filter (fun u => decide (utxoThreshhold txB amt fr fnf ≤ u.value))) = []
      ↔ ∀ u ∈ utxos, u.value < utxoThreshhold txB amt fr fnf := by
  rw [insertionSort_eq_nil_iff, List.filter_eq_nil_iff]
  constructor
  · intro h u hu
    have := h u hu
    simp only [decide_eq_true_eq] at this
    omega
  · intro h u hu
    simp only [decide_eq_true_eq, not_le]
    exact h u hu

/-- The head of the in-place descending sort is a maximum-value element of
the pool, and the sorted pool is a permutation of the original. -/
theorem desc_head_max (utxos : List UTXO) (largest : UTXO) (rest : List UTXO)
    (hs : List.insertionSort UTXO.descLe utxos = largest :: rest) :
    largest ∈ utxos ∧ (∀ u ∈ utxos, u.value ≤ largest.value)
      ∧ (largest :: rest).Perm utxos := by
  have hperm : (largest :: rest).Perm utxos := by
    rw [← hs]
    exact List.perm_insertionSort UTXO.descLe utxos
  have hsorted := List.sorted_insertionSort UTXO.descLe utxos
  rw [hs, List.sorted_cons] at hsorted
  refine ⟨hperm.mem_iff.mp (List.mem_cons_self _ _), ?_, hperm⟩
  intro u hu
  rcases List.mem_cons.mp (hperm.mem_iff.mpr hu) with h | h
  · exact le_of_eq (congrArg UTXO.value h)
  · exact hsorted.1 u h

def totalValue (utxos : List UTXO) : Int := (utxos.map UTXO.value).sum

theorem totalValue_perm {l₁ l₂ : List UTXO} (h : l₁.Perm l₂) :
    totalValue l₁ = totalValue l₂ :=
  (h.map UTXO.value).sum_eq

theorem totalValue_le (l : List UTXO) (B : Int) (h : ∀ u ∈ l, u.value ≤ B) :
    totalValue l ≤ l.length * B := by
  induction l with
  | nil => simp [totalValue]
  | cons u us ih =>
    have h1 := h u (List.mem_cons_self u us)
    have h2 := ih (fun v hv => h v (List.mem_cons_of_mem u hv))
    simp only [totalValue, List.map_cons, List.sum_cons, List.length_cons] at h2 ⊢
    push_cast
    nlinarith [h1, h2]

theorem totalValue_lt (l : List UTXO) (B : Int) (hne : l ≠ []) (h : ∀ u ∈ l, u.value < B) :
    totalValue l < l.length * B := by
  obtain ⟨u, us, rfl⟩ := List.exists_cons_of_ne_nil hne
  have h1 := h u (List.mem_cons_self u us)
  have h2 := totalValue_le us B (fun v hv => le_of_lt (h v (List.mem_cons_of_mem u hv)))
  simp only [totalValue, List.map_cons, List.sum_cons, List.length_cons] at h2 ⊢
  push_cast
  nlinarith [h1, h2]

/-- The worst-case fee of adding every UTXO of the pool as an input,
priced with the same estimator delta the funder uses. -/
def worstCaseFee (txB : Transaction) (utxos : List UTXO) (feeRate : Int) : Int :=
  feeRate * ((estimateTXBytes txB utxos.length 0 : Int) - (estimateTXBytes txB 0 0 : Int))

theorem worstCaseFee_eq (txB : Transaction) (utxos : List UTXO) (fr : Int) :
    worstCaseFee txB utxos fr = fr * (148 * utxos.length) := by
  unfold worstCaseFee
  rw [estimateTXBytes_eq txB utxos.length 0]
  simp only [TX_INPUT_BASE, TX_INPUT_PUBKEYHASH]
  push_cast
  ring

/-- Any change amount a successful `addUTXOsToFund` call hands back is
nonnegative (the selected UTXO covered the threshold). -/
theorem fund_change_nonneg_aux :
    ∀ (n : Nat) (txB : Transaction) (utxos : List UTXO) (amt fr : Int) (fnf : Bool) (c : Int),
      utxos.length = n →
      (addUTXOsToFund txB utxos amt fr fnf).result = .ok c → 0 ≤ c := by
  intro n
  induction n using Nat.strong_induction_on with
  | _ n ih =>
    intro txB utxos amt fr fnf c hlen hres
    by_cases hne : utxos = []
    · subst hne
      rw [fund_nil] at hres
      simp at hres
    · cases hgood : List.insertionSort UTXO.ascLe
          (utxos.filter (fun u => decide (utxoThreshhold txB amt fr fnf ≤ u.value))) with
      | cons selected tl =>
        rw [fund_good txB utxos amt fr fnf selected tl hne hgood] at hres
        have hc : (if fnf then selected.value - amt - newFees txB fr
            else selected.value - amt) = c := by
          simpa using hres
        have hmem : selected ∈ List.insertionSort UTXO.ascLe
            (utxos.filter (fun u => decide (utxoThreshhold txB amt fr fnf ≤ u.value))) := by
          rw [hgood]
          exact List.mem_cons_self _ _
        have hsel : utxoThreshhold txB amt fr fnf ≤ selected.value := by
          have hf := (List.mem_filter.mp
            ((List.perm_insertionSort UTXO.ascLe _).mem_iff.mp hmem)).2
          simpa using hf
        subst hc
        unfold utxoThreshhold at hsel
        by_cases hf : fnf
        · simp [hf] at hsel ⊢
          linarith
        · simp [hf] at hsel ⊢
          linarith
      | nil =>
        cases hsort : List.insertionSort UTXO.descLe utxos with
        | nil => exact absurd ((insertionSort_eq_nil_iff _ _).mp hsort) hne
        | cons largest rest =>
          by_cases hfee : largest.value ≤ newFees txB fr
          · rw [fund_fee_fail txB utxos amt fr fnf largest rest hne hgood hsort hfee] at hres
            simp at hres
          · push_neg at hfee
            rw [fund_consume txB utxos amt fr fnf largest rest hne hgood hsort hfee] at hres
            have hlt : rest.length < n := by
              have hl := (List.perm_insertionSort UTXO.descLe utxos).length_eq
              rw [hsort] at hl
              simp at hl
              omega
            exact ih rest.length hlt _ rest _ fr fnf c rfl hres

/-- A non-empty pool whose total value covers the target plus the
worst-case fee of adding every pool UTXO always funds successfully, with
nonnegative change. -/
theorem fund_sufficient_aux :
    ∀ (n : Nat) (txB : Transaction) (utxos : List UTXO) (amt fr : Int) (fnf : Bool),
      utxos.length = n → utxos ≠ [] → 0 ≤ amt → 0 < fr →
      amt + fr * (148 * utxos.length) ≤ totalValue utxos →
      ∃ c, (addUTXOsToFund txB utxos amt fr fnf).result = .ok c ∧ 0 ≤ c := by
  intro n
  induction n using Nat.strong_induction_on with
  | _ n ih =>
    intro txB utxos amt fr fnf hlen hne hamt hfr htot
    have hF : (0 : Int) < fr * 148 := by positivity
    have hN1 : (1 : Int) ≤ (utxos.length : Int) := by
      have := List.length_pos.mpr hne
      omega
    cases hgood : List.insertionSort UTXO.ascLe
        (utxos.filter (fun u => decide (utxoThreshhold txB amt fr fnf ≤ u.value))) with
    | cons selected tl =>
      have heq := fund_good txB utxos amt fr fnf selected tl hne hgood
      refine ⟨if fnf then selected.value - amt - newFees txB fr
        else selected.value - amt, by rw [heq], ?_⟩
      have hmem : selected ∈ List.insertionSort UTXO.ascLe
          (utxos.filter (fun u => decide (utxoThreshhold txB amt fr fnf ≤ u.value))) := by
        rw [hgood]
        exact List.mem_cons_self _ _
      have hsel : utxoThreshhold txB amt fr fnf ≤ selected.value := by
        have hf := (List.mem_filter.mp
          ((List.perm_insertionSort UTXO.ascLe _).mem_iff.mp hmem)).2
        simpa using hf
      unfold utxoThreshhold at hsel
      by_cases hf : fnf
      · simp [hf] at hsel ⊢
        linarith
      · simp [hf] at hsel ⊢
        linarith
    | nil =>
      have hnogood := (good_nil_iff txB utxos amt fr fnf).mp hgood
      cases hsort : List.insertionSort UTXO.descLe utxos with
      | nil => exact absurd ((insertionSort_eq_nil_iff _ _).mp hsort) hne
      | cons largest rest =>
        obtain ⟨hmem, hmax, hperm⟩ := desc_head_max utxos largest rest hsort
        have hlen2 : rest.length + 1 = utxos.length := by
          have := hperm.length_eq
          simpa using this
        have hrestsum : totalValue rest = totalValue utxos - largest.value := by
          have h1 := totalValue_perm hperm
          simp only [totalValue, List.map_cons, List.sum_cons] at h1
          unfold totalValue
          linarith
        have hlargest : largest.value < utxoThreshhold txB amt fr fnf := hnogood largest hmem
        -- the fee check cannot fire under the precondition
        have hfee : newFees txB fr < largest.value := by
          by_contra hcon
          push_neg at hcon
          rw [newFees_eq] at hcon
          have hall : ∀ u ∈ utxos, u.value ≤ fr * 148 :=
            fun u hu => le_trans (hmax u hu) hcon
          have h1 : totalValue utxos ≤ (utxos.length : Int) * (fr * 148) :=
            totalValue_le utxos _ hall
          have e1 : ((utxos.length : Int)) * (fr * 148) = fr * (148 * utxos.length) := by
            ring
          have hamt0 : amt = 0 := by
            rw [e1] at h1
            linarith
          unfold utxoThreshhold at hlargest
          by_cases hf : fnf
          · simp [hf, hamt0, newFees_eq] at hlargest
            have hstrict : ∀ u ∈ utxos, u.value < fr * 148 :=
              fun u hu => lt_of_le_of_lt (hmax u hu) hlargest
            have h2 : totalValue utxos < (utxos.length : Int) * (fr * 148) :=
              totalValue_lt utxos _ hne hstrict
            rw [e1] at h2
            rw [hamt0] at htot
            linarith
          · simp [hf, hamt0] at hlargest
            have hstrict : ∀ u ∈ utxos, u.value < 0 :=
              fun u hu => lt_of_le_of_lt (hmax u hu) hlargest
            have h2 : totalValue utxos < (utxos.length : Int) * 0 :=
              totalValue_lt utxos _ hne hstrict
            rw [hamt0] at htot
            nlinarith
        -- the pool cannot be a singleton under the precondition
        have hrestne : rest ≠ [] := by
          intro hrnil
          rw [hrnil] at hlen2
          have hNeq : ((utxos.length : Int)) = 1 := by
            simp at hlen2
            omega
          have hsingle : totalValue utxos = largest.value := by
            rw [hrnil] at hrestsum
            simp only [totalValue, List.map_nil, List.sum_nil] at hrestsum
            simp only [totalValue]
            linarith
          have e2 : fr * (148 * (1 : Int)) = fr * 148 := by ring
          rw [hsingle, hNeq, e2] at htot
          unfold utxoThreshhold at hlargest
          by_cases hf : fnf
          · simp [hf, newFees_eq] at hlargest
            linarith
          · simp [hf] at hlargest
            linarith
        have hlt : rest.length < n := by omega
        -- precondition for the recursive call
        have hamt2 : 0 ≤ (if fnf then amt - largest.value + newFees txB fr
            else amt - largest.value) := by
          unfold utxoThreshhold at hlargest
          by_cases hf : fnf
          · simp [hf] at hlargest ⊢
            linarith
          · simp [hf] at hlargest ⊢
            linarith
        have htot2 : (if fnf then amt - largest.value + newFees txB fr
            else amt - largest.value) + fr * (148 * rest.length) ≤ totalValue rest := by
          have hM : (rest.length : Int) = (utxos.length : Int) - 1 := by
            omega
          rw [hrestsum, hM, newFees_eq]
          have e3 : fr * (148 * ((utxos.length : Int) - 1))
              = fr * (148 * utxos.length) - fr * 148 := by ring
          by_cases hf : fnf
          · simp only [hf, if_true, e3]
            linarith
          · simp [hf, e3]
            linarith
        obtain ⟨c, hc, hcpos⟩ := ih rest.length hlt
          (txB.addInput largest.tx_hash largest.tx_output_n) rest _ fr fnf rfl
          hrestne hamt2 hfr htot2
        refine ⟨c, ?_, hcpos⟩
        rw [fund_consume txB utxos amt fr fnf largest rest hne hgood hsort hfee]
        exact hc

/-! ### Claim C1 -/

/-- C1, amended: over every NON-EMPTY UTXO pool whose total value is at
least `amountToFund` plus the worst-case fee of adding every pool UTXO as
an input, with `amountToFund ≥ 0` and a positive fee rate,
`addUTXOsToFund` returns without raising and the change is nonnegative;
and every change any successful call returns (with or without
`fundNewFees`) is nonnegative.  The original claim quantified over every
pool: it fails for the empty pool with `amountToFund = 0`, where the
precondition holds but the source throws at its first line. -/
theorem addUTXOsToFund_sufficient_funds :
    (∀ (txB : Transaction) (utxos : List UTXO) (amt fr : Int) (fnf : Bool),
        utxos ≠ [] → 0 ≤ amt → 0 < fr →
        amt + worstCaseFee txB utxos fr ≤ totalValue utxos →
        ∃ c, (addUTXOsToFund txB utxos amt fr fnf).result = .ok c ∧ 0 ≤ c)
    ∧ (∀ (txB : Transaction) (utxos : List UTXO) (amt fr : Int) (fnf : Bool) (c : Int),
        (addUTXOsToFund txB utxos amt fr fnf).result = .ok c → 0 ≤ c) := by
  constructor
  · intro txB utxos amt fr fnf hne hamt hfr htot
    rw [worstCaseFee_eq] at htot
    exact fund_sufficient_aux utxos.length txB utxos amt fr fnf rfl hne hamt hfr htot
  · intro txB utxos amt fr fnf c h
    exact fund_change_nonneg_aux utxos.length txB utxos amt fr fnf c rfl h

def emptyTx : Transaction := ⟨[], []⟩

/-- C1 counterexample: the empty pool with `amountToFund = 0` satisfies the
claim's precondition (total value 0 is at least 0 plus a worst-case fee of
0 for adding its zero UTXOs), yet the call raises `NotEnoughFundsError`
instead of returning. -/
theorem addUTXOsToFund_c1_counterexample :
    (0 : Int) + worstCaseFee emptyTx [] 1 ≤ totalValue []
    ∧ (addUTXOsToFund emptyTx [] 0 1 true).result = .error 0 := by
  constructor
  · decide
  · rw [fund_nil]

theorem addUTXOsToFund_sufficient_funds_witness :
    ∃ c, (addUTXOsToFund emptyTx [⟨6000, "ub", 1⟩] 5000 1 true).result = .ok c ∧ 0 ≤ c :=
  addUTXOsToFund_sufficient_funds.1 emptyTx [⟨6000, "ub", 1⟩] 5000 1 true
    (by decide) (by decide) (by decide) (by decide)

/-! ### Claim C2 -/

/-- C2: whenever some pool UTXO reaches the threshold (`amountToFund`,
plus the marginal one-input fee when `fundNewFees`), the call appends a
minimum-value sufficient UTXO as an input and returns
`selected.value - amountToFund` (additionally minus the marginal fee when
`fundNewFees`), leaving the caller's pool array untouched. -/
theorem addUTXOsToFund_selects_min (txB : Transaction) (utxos : List UTXO)
    (amt fr : Int) (fnf : Bool)
    (h : ∃ u ∈ utxos, utxoThreshhold txB amt fr fnf ≤ u.value) :
    ∃ selected ∈ utxos,
      utxoThreshhold txB amt fr fnf ≤ selected.value
      ∧ (∀ u ∈ utxos, utxoThreshhold txB amt fr fnf ≤ u.value → selected.value ≤ u.value)
      ∧ addUTXOsToFund txB utxos amt fr fnf =
          ⟨txB.addInput selected.tx_hash selected.tx_output_n, utxos,
           .ok (if fnf then selected.value - amt - newFees txB fr
                else selected.value - amt)⟩ := by
  obtain ⟨u0, hu0, hv0⟩ := h
  have hne : utxos ≠ [] := by
    intro hnil
    rw [hnil] at hu0
    simp at hu0
  cases hgood : List.insertionSort UTXO.ascLe
      (utxos.filter (fun u => decide (utxoThreshhold txB amt fr fnf ≤ u.value))) with
  | nil =>
    exact absurd hv0 (not_le.mpr ((good_nil_iff txB utxos amt fr fnf).mp hgood u0 hu0))
  | cons selected tl =>
    have hmem : selected ∈ List.insertionSort UTXO.ascLe
        (utxos.filter (fun u => decide (utxoThreshhold txB amt fr fnf ≤ u.value))) := by
      rw [hgood]
      exact List.mem_cons_self _ _
    have hself := List.mem_filter.mp
      ((List.perm_insertionSort UTXO.ascLe _).mem_iff.mp hmem)
    have hsorted := List.sorted_insertionSort UTXO.ascLe
      (utxos.filter (fun u => decide (utxoThreshhold txB amt fr fnf ≤ u.value)))
    rw [hgood, List.sorted_cons] at hsorted
    refine ⟨selected, hself.1, by simpa using hself.2, ?_,
      fund_good txB utxos amt fr fnf selected tl hne hgood⟩
    intro u hu huv
    have humem : u ∈ selected :: tl := by
      rw [← hgood]
      exact (List.perm_insertionSort UTXO.ascLe _).mem_iff.mpr
        (List.mem_filter.mpr ⟨hu, by simpa using huv⟩)
    rcases List.mem_cons.mp humem with h | h
    · exact le_of_eq (congrArg UTXO.value h).symm
    · exact hsorted.1 u h

def utxoA : UTXO := ⟨1000, "ua", 0⟩

def utxoB : UTXO := ⟨6000, "ub", 1⟩

theorem addUTXOsToFund_selects_min_witness :
    ∃ selected ∈ [utxoA, utxoB],
      utxoThreshhold emptyTx 5000 1 true ≤ selected.value
      ∧ (∀ u ∈ [utxoA, utxoB],
          utxoThreshhold emptyTx 5000 1 true ≤ u.value → selected.value ≤ u.value)
      ∧ addUTXOsToFund emptyTx [utxoA, utxoB] 5000 1 true =
          ⟨emptyTx.addInput selected.tx_hash selected.tx_output_n, [utxoA, utxoB],
           .ok (if true then selected.value - 5000 - newFees emptyTx 1
                else selected.value - 5000)⟩ :=
  addUTXOsToFund_selects_min emptyTx [utxoA, utxoB] 5000 1 true
    ⟨utxoB, by decide, by decide⟩

/-! ### Claim C3 -/

theorem utxoThreshhold_eq (txB : Transaction) (amt fr : Int) (fnf : Bool) :
    utxoThreshhold txB amt fr fnf = if fnf then amt + fr * 148 else amt := by
  unfold utxoThreshhold
  rw [newFees_eq]

/-- The spec's characterization of exactly when `addUTXOsToFund` raises
`NotEnoughFundsError`, as a predicate over the pool and the running
target (the marginal one-input fee is `feeRate * 148` at every depth, see
`newFees_eq`).  `RaisesNEF fr fnf utxos amt e` holds when the call, or a
recursive call reached by repeatedly consuming the largest UTXO, fails
carrying amount `e`: either its pool is empty (the error carries that
call's own `amountToFund`), or no UTXO meets the threshold and the
marginal fee is at least the value of the largest remaining UTXO. -/
inductive RaisesNEF (fr : Int) (fnf : Bool) : List UTXO → Int → Int → Prop where
  | empty (amt : Int) : RaisesNEF fr fnf [] amt amt
  | feeTooHigh (utxos : List UTXO) (amt : Int) (hne : utxos ≠ [])
      (hnogood : ∀ u ∈ utxos, u.value < (if fnf then amt + fr * 148 else amt))
      (hfee : ∀ u ∈ utxos, u.value ≤ fr * 148) :
      RaisesNEF fr fnf utxos amt amt
  | consume (utxos : List UTXO) (amt e : Int) (largest : UTXO) (rest : List UTXO)
      (hsort : List.insertionSort UTXO.descLe utxos = largest :: rest)
      (hnogood : ∀ u ∈ utxos, u.value < (if fnf then amt + fr * 148 else amt))
      (hfee : fr * 148 < largest.value)
      (hrec : RaisesNEF fr fnf rest
        (if fnf then amt - largest.value + fr * 148 else amt - largest.value) e) :
      RaisesNEF fr fnf utxos amt e

theorem fund_error_iff_aux :
    ∀ (n : Nat) (txB : Transaction) (utxos : List UTXO) (amt fr : Int) (fnf : Bool) (e : Int),
      utxos.length = n →
      ((addUTXOsToFund txB utxos amt fr fnf).result = .error e
        ↔ RaisesNEF fr fnf utxos amt e) := by
  intro n
  induction n using Nat.strong_induction_on with
  | _ n ih =>
    intro txB utxos amt fr fnf e hlen
    by_cases hne : utxos = []
    · subst hne
      rw [fund_nil]
      constructor
      · intro h
        have hae : amt = e := by simpa using h
        subst hae
        exact RaisesNEF.empty amt
      · intro h
        cases h with
        | empty => rfl
        | feeTooHigh _ _ hne2 _ _ => exact absurd rfl hne2
        | consume _ _ _ largest rest hsort _ _ _ => simp at hsort
    · cases hgood : List.insertionSort UTXO.ascLe
          (utxos.filter (fun u => decide (utxoThreshhold txB amt fr fnf ≤ u.value))) with
      | cons selected tl =>
        rw [fund_good txB utxos amt fr fnf selected tl hne hgood]
        have hmem : selected ∈ List.insertionSort UTXO.ascLe
            (utxos.filter (fun u => decide (utxoThreshhold txB amt fr fnf ≤ u.value))) := by
          rw [hgood]
          exact List.mem_cons_self _ _
        have hself := List.mem_filter.mp
          ((List.perm_insertionSort UTXO.ascLe _).mem_iff.mp hmem)
        have hsel : utxoThreshhold txB amt fr fnf ≤ selected.value := by
          simpa using hself.2
        rw [utxoThreshhold_eq] at hsel
        constructor
        · intro h
          simp at h
        · intro h
          exfalso
          cases h with
          | empty => exact hne rfl
          | feeTooHigh _ _ _ hnogood _ =>
            exact absurd hsel (not_le.mpr (hnogood selected hself.1))
          | consume _ _ _ _ _ _ hnogood _ _ =>
            exact absurd hsel (not_le.mpr (hnogood selected hself.1))
      | nil =>
        have hnogood2 : ∀ u ∈ utxos, u.value < (if fnf then amt + fr * 148 else amt) := by
          rw [← utxoThreshhold_eq txB amt fr fnf]
          exact (good_nil_iff txB utxos amt fr fnf).mp hgood
        cases hsort : List.insertionSort UTXO.descLe utxos with
        | nil => exact absurd ((insertionSort_eq_nil_iff _ _).mp hsort) hne
        | cons largest rest =>
          obtain ⟨hmem, hmax, hperm⟩ := desc_head_max utxos largest rest hsort
          by_cases hfee : largest.value ≤ newFees txB fr
          · rw [fund_fee_fail txB utxos amt fr fnf largest rest hne hgood hsort hfee]
            rw [newFees_eq] at hfee
            constructor
            · intro h
              have hae : amt = e := by simpa using h
              subst hae
              exact RaisesNEF.feeTooHigh utxos amt hne hnogood2
                (fun u hu => le_trans (hmax u hu) hfee)
            · intro h
              cases h with
              | empty => exact absurd rfl hne
              | feeTooHigh => rfl
              | consume _ _ _ l2 r2 hsort2 _ hfee2 _ =>
                rw [hsort] at hsort2
                injection hsort2 with h1 h2
                subst h1
                exact absurd hfee (not_le.mpr hfee2)
          · push_neg at hfee
            rw [fund_consume txB utxos amt fr fnf largest rest hne hgood hsort hfee]
            have hfee148 : fr * 148 < largest.value := by
              rwa [newFees_eq] at hfee
            have hamtv : (if fnf then amt - largest.value + newFees txB fr
                else amt - largest.value)
                = (if fnf then amt - largest.value + fr * 148 else amt - largest.value) := by
              rw [newFees_eq]
            have hlt : rest.length < n := by
              have hl := hperm.length_eq
              simp at hl
              omega
            have hih := ih rest.length hlt
              (txB.addInput largest.tx_hash largest.tx_output_n) rest
              (if fnf then amt - largest.value + fr * 148 else amt - largest.value)
              fr fnf e rfl
            constructor
            · intro h
              have h2 : (addUTXOsToFund (txB.addInput largest.tx_hash largest.tx_output_n) rest
                  (if fnf then amt - largest.value + fr * 148 else amt - largest.value)
                  fr fnf).result = .error e := by
                rw [← hamtv]
                exact h
              exact RaisesNEF.consume utxos amt e largest rest hsort hnogood2 hfee148
                (hih.mp h2)
            · intro h
              cases h with
              | empty => exact absurd rfl hne
              | feeTooHigh _ _ _ _ hfee2 =>
                exact absurd (hfee2 largest hmem) (not_le.mpr hfee148)
              | consume _ _ _ l2 r2 hsort2 _ _ hrec =>
                rw [hsort] at hsort2
                injection hsort2 with h1 h2
                subst h1
                subst h2
                show (addUTXOsToFund (txB.addInput largest.tx_hash largest.tx_output_n) rest
                  (if fnf then amt - largest.value + newFees txB fr else amt - largest.value)
                  fr fnf).result = .error e
                rw [hamtv]
                exact hih.mpr hrec

/-- C3: `addUTXOsToFund` raises `NotEnoughFundsError` exactly when, at the
call itself or at some recursive call (each of which has consumed the
largest remaining UTXO of a pool with no sufficient UTXO), the pool is
empty — the error then carrying that call's still-unfunded `amountToFund`
— or no UTXO meets the threshold and the marginal one-input fee is at
least the value of the largest remaining UTXO; no other condition
raises it. -/
theorem addUTXOsToFund_error_iff (txB : Transaction) (utxos : List UTXO)
    (amt fr : Int) (fnf : Bool) (e : Int) :
    (addUTXOsToFund txB utxos amt fr fnf).result = .error e
      ↔ RaisesNEF fr fnf utxos amt e :=
  fund_error_iff_aux utxos.length txB utxos amt fr fnf e rfl

theorem addUTXOsToFund_error_iff_witness :
    (addUTXOsToFund emptyTx [] 7 1 true).result = .error 7 :=
  (addUTXOsToFund_error_iff emptyTx [] 7 1 true 7).mpr (RaisesNEF.empty 7)

/-! ### Claim C7 -/

/-- C7: `addUTXOsToFund` terminates on every input — it is a total
function producing either a change amount or a `NotEnoughFundsError`
amount; every recursive call receives exactly one element fewer (the tail
of the sorted pool), and the empty pool is the guaranteed base failure. -/
theorem addUTXOsToFund_total :
    (∀ (txB : Transaction) (utxos : List UTXO) (amt fr : Int) (fnf : Bool),
        (∃ c, (addUTXOsToFund txB utxos amt fr fnf).result = .ok c)
          ∨ (∃ e, (addUTXOsToFund txB utxos amt fr fnf).result = .error e))
    ∧ (∀ (utxos : List UTXO) (largest : UTXO) (rest : List UTXO),
        List.insertionSort UTXO.descLe utxos = largest :: rest →
        rest.length + 1 = utxos.length)
    ∧ (∀ (txB : Transaction) (amt fr : Int) (fnf : Bool),
        (addUTXOsToFund txB [] amt fr fnf).result = .error amt) := by
  refine ⟨?_, ?_, ?_⟩
  · intro txB utxos amt fr fnf
    cases h : (addUTXOsToFund txB utxos amt fr fnf).result with
    | ok c => exact Or.inl ⟨c, rfl⟩
    | error e => exact Or.inr ⟨e, rfl⟩
  · intro utxos largest rest hs
    have hl := (List.perm_insertionSort UTXO.descLe utxos).length_eq
    rw [hs] at hl
    simpa using hl
  · intro txB amt fr fnf
    rw [fund_nil]

/-! ### Claim C9 -/

/-- C9: when no pool UTXO meets the threshold, the call hands the caller's
array back sorted in place, descending by value (a permutation of the
original pool) — a lasting reorder of the caller's own array, on top of
the documented mutation of the builder; when a sufficient UTXO exists,
the caller's array comes back unchanged (only a filtered copy was
sorted). -/
theorem addUTXOsToFund_pool_mutation (txB : Transaction) (utxos : List UTXO)
    (amt fr : Int) (fnf : Bool) (hne : utxos ≠ []) :
    ((∃ u ∈ utxos, utxoThreshhold txB amt fr fnf ≤ u.value) →
        (addUTXOsToFund txB utxos amt fr fnf).utxos = utxos)
    ∧ ((∀ u ∈ utxos, u.value < utxoThreshhold txB amt fr fnf) →
        (addUTXOsToFund txB utxos amt fr fnf).utxos.Perm utxos
          ∧ List.Sorted UTXO.descLe (addUTXOsToFund txB utxos amt fr fnf).utxos) := by
  constructor
  · intro h
    obtain ⟨u0, hu0, hv0⟩ := h
    cases hgood : List.insertionSort UTXO.ascLe
        (utxos.filter (fun u => decide (utxoThreshhold txB amt fr fnf ≤ u.value))) with
    | nil =>
      exact absurd hv0 (not_le.mpr ((good_nil_iff txB utxos amt fr fnf).mp hgood u0 hu0))
    | cons selected tl =>
      rw [fund_good txB utxos amt fr fnf selected tl hne hgood]
  · intro h
    have hgood := (good_nil_iff txB utxos amt fr fnf).mpr h
    cases hsort : List.insertionSort UTXO.descLe utxos with
    | nil => exact absurd ((insertionSort_eq_nil_iff _ _).mp hsort) hne
    | cons largest rest =>
      have hperm : (largest :: rest).Perm utxos := by
        rw [← hsort]
        exact List.perm_insertionSort UTXO.descLe utxos
      have hsorted : List.Sorted UTXO.descLe (largest :: rest) := by
        rw [← hsort]
        exact List.sorted_insertionSort UTXO.descLe utxos
      by_cases hfee : largest.value ≤ newFees txB fr
      · rw [fund_fee_fail txB utxos amt fr fnf largest rest hne hgood hsort hfee]
        exact ⟨hperm, hsorted⟩
      · push_neg at hfee
        rw [fund_consume txB utxos amt fr fnf largest rest hne hgood hsort hfee]
        exact ⟨hperm, hsorted⟩

theorem addUTXOsToFund_pool_mutation_witness :
    (addUTXOsToFund emptyTx [utxoA, utxoB] 50000 1 true).utxos.Perm [utxoA, utxoB]
    ∧ List.Sorted UTXO.descLe (addUTXOsToFund emptyTx [utxoA, utxoB] 50000 1 true).utxos :=
  (addUTXOsToFund_pool_mutation emptyTx [utxoA, utxoB] 50000 1 true (by decide)).2
    (by decide)

/-! ### Base-40 decoder (`decodeB40`, lines 90-114 of the source) -/

def b40Characters : String := "0123456789abcdefghijklmnopqrstuvwxyz-_.+"

/-- JavaScript `characters.indexOf(character)` for one character: the
first index of the character in the string, `-1` when absent. -/
def jsIndexOf (s : String) (c : Char) : Int :=
  match s.toList.findIdx? (fun x => decide (x = c)) with
  | some i => (i : Int)
  | none => -1

/-- The source's indexed map
`inputDigits.map((character, exponent) => BN(indexOf).mul(base.pow(exponent)))`:
each entry is the character's alphabet index (`-1` when absent) times
`40 ^ exponent`, exponents counting up from `e`. -/
def digitTerms : List Char → Nat → List Int
  | [], _ => []
  | c :: cs, e => jsIndexOf b40Characters c * 40 ^ e :: digitTerms cs (e + 1)

/-- The hexadecimal digits bn.js produces for a magnitude: lowercase, no
leading zeros, a single `0` for zero. -/
def hexDigitsOf (n : Nat) : List Char := Nat.toDigits 16 n

/-- The bn.js `toString` padding loop with `padding = 2`
(`while (out.length % padding !== 0) out = "0" + out`): one `0` is
prepended when the digit count is odd. -/
def padEvenZeros (l : List Char) : List Char :=
  if l.length % 2 = 0 then l else '0' :: l

/-- bn.js `sum.toString(16, 2)`: hex digits of the absolute value padded
to an even count, with a leading minus sign for negative values. -/
def bnToStringHex2 (i : Int) : String :=
  if i < 0 then ⟨'-' :: padEvenZeros (hexDigitsOf i.natAbs)⟩
  else ⟨padEvenZeros (hexDigitsOf i.natAbs)⟩

/-- `decodeB40` of the source: reverse the characters, map each to its
alphabet index times `40 ^ exponent`, sum with `reduce`, render with
`toString(16, 2)`. -/
def decodeB40 (input : String) : String :=
  let inputDigits := input.toList.reverse
  let digitValues := digitTerms inputDigits 0
  let sum := digitValues.foldl (fun agg cur => agg + cur) 0
  bnToStringHex2 sum

/-- A character's digit value per the spec: its index in the alphabet. -/
def b40DigitValue (c : Char) : Nat :=
  b40Characters.toList.findIdx (fun x => decide (x = c))

/-- The spec-side value of a base-40 numeral read most-significant digit
first, in arbitrary-precision (`Nat`) arithmetic. -/
def base40Value (s : String) : Nat :=
  s.toList.foldl (fun a c => 40 * a + b40DigitValue c) 0

/-- The amended rendering: lowercase hex digits of the value, zero-padded
to an even count (hence at least two digits). -/
def hexEvenPad (n : Nat) : String := ⟨padEvenZeros (hexDigitsOf n)⟩

/-- The original claim's rendering: lowercase hex digits zero-padded to at
least two digits (a zero prepended only to a single digit). -/
def hexAtLeastTwo (n : Nat) : String :=
  if (hexDigitsOf n).length < 2 then ⟨'0' :: hexDigitsOf n⟩ else ⟨hexDigitsOf n⟩

/-- Least-significant-digit-first value of a character list under the
source's indexOf digit values. -/
def b40SumLSB : List Char → Int
  | [] => 0
  | c :: cs => jsIndexOf b40Characters c + 40 * b40SumLSB cs

theorem digitTerms_foldl (l : List Char) (e : Nat) (s : Int) :
    (digitTerms l e).foldl (fun agg cur => agg + cur) s
      = s + 40 ^ e * b40SumLSB l := by
  induction l generalizing e s with
  | nil => simp [digitTerms, b40SumLSB]
  | cons c cs ih =>
    simp only [digitTerms, b40SumLSB, List.foldl_cons, ih]
    ring

theorem b40SumLSB_append (l : List Char) (c : Char) :
    b40SumLSB (l ++ [c]) = b40SumLSB l + 40 ^ l.length * jsIndexOf b40Characters c := by
  induction l with
  | nil => simp [b40SumLSB]
  | cons d ds ih =>
    have h1 : b40SumLSB ((d :: ds) ++ [c])
        = jsIndexOf b40Characters d + 40 * b40SumLSB (ds ++ [c]) := rfl
    have h2 : b40SumLSB (d :: ds) = jsIndexOf b40Characters d + 40 * b40SumLSB ds := rfl
    rw [h1, h2, ih, List.length_cons]
    ring

theorem foldl_msb_eq (l : List Char) (a : Int) :
    l.foldl (fun acc c => 40 * acc + jsIndexOf b40Characters c) a
      = 40 ^ l.length * a + b40SumLSB l.reverse := by
  induction l generalizing a with
  | nil => simp [b40SumLSB]
  | cons c cs ih =>
    simp only [List.foldl_cons, List.reverse_cons, ih, b40SumLSB_append,
      List.length_reverse, List.length_cons]
    ring

/-- The implementation's sum is the most-significant-first fold of the
indexOf digit values. -/
theorem decodeB40_sum (input : String) :
    decodeB40 input = bnToStringHex2
      (input.toList.foldl (fun acc c => 40 * acc + jsIndexOf b40Characters c) 0) := by
  show bnToStringHex2
      ((digitTerms input.toList.reverse 0).foldl (fun agg cur => agg + cur) 0) = _
  rw [digitTerms_foldl, foldl_msb_eq]
  congr 1
  ring

theorem findIdx?_eq_some_findIdx {α : Type} (p : α → Bool) :
    ∀ (l : List α) (i : Nat), (∃ x ∈ l, p x = true) →
      List.findIdx? p l i = some (l.findIdx p + i) := by
  intro l
  induction l with
  | nil =>
    intro i h
    simp at h
  | cons d ds ih =>
    intro i h
    rw [List.findIdx?_cons, List.findIdx_cons]
    by_cases hd : p d
    · simp [hd]
    · have h2 : ∃ x ∈ ds, p x = true := by
        obtain ⟨x, hx, hpx⟩ := h
        rcases List.mem_cons.mp hx with rfl | hx2
        · exact absurd hpx hd
        · exact ⟨x, hx2, hpx⟩
      rw [if_neg (by simp [hd]), ih (i + 1) h2]
      simp only [hd, cond_false]
      exact congrArg some (by omega)

theorem jsIndexOf_of_mem (c : Char) (h : c ∈ b40Characters.toList) :
    jsIndexOf b40Characters c = (b40DigitValue c : Int) := by
  unfold jsIndexOf b40DigitValue
  rw [findIdx?_eq_some_findIdx (fun x => decide (x = c)) b40Characters.toList 0
    ⟨c, h, by simp⟩]
  simp

theorem jsIndexOf_of_not_mem (c : Char) (h : c ∉ b40Characters.toList) :
    jsIndexOf b40Characters c = -1 := by
  unfold jsIndexOf
  rw [List.findIdx?_eq_none_iff.mpr ?_]
  intro x hx
  simp only [decide_eq_false_iff_not]
  intro hxc
  exact h (hxc ▸ hx)

theorem foldl_msb_nat_aux (l : List Char) (h : ∀ c ∈ l, c ∈ b40Characters.toList)
    (a : Nat) :
    l.foldl (fun acc c => 40 * acc + jsIndexOf b40Characters c) ((a : Nat) : Int)
      = ((l.foldl (fun acc c => 40 * acc + b40DigitValue c) a : Nat) : Int) := by
  induction l generalizing a with
  | nil => simp
  | cons c cs ih =>
    simp only [List.foldl_cons]
    rw [jsIndexOf_of_mem c (h c (List.mem_cons_self c cs))]
    have hc : (40 * ((a : Nat) : Int) + (b40DigitValue c : Int))
        = (((40 * a + b40DigitValue c : Nat) : Nat) : Int) := by
      push_cast
      ring
    rw [hc]
    exact ih (fun d hd => h d (List.mem_cons_of_mem c hd)) _

/-- C8, amended: over the declared alphabet, `decodeB40` renders the
base-40 most-significant-digit-first value of the input in lowercase
hexadecimal, zero-padded with leading zeros to an EVEN number of digits
(hence at least two); in particular `decodeB40 "0" = "00"` and
`decodeB40 "10" = "28"`.  The original claim's padding-to-at-least-two
reading fails for values whose canonical hex has three or more digits
with an odd count (see the counterexample at "100"). -/
theorem decodeB40_spec (input : String)
    (h : ∀ c ∈ input.toList, c ∈ b40Characters.toList) :
    decodeB40 input = hexEvenPad (base40Value input)
    ∧ decodeB40 "0" = "00" ∧ decodeB40 "10" = "28" := by
  refine ⟨?_, by decide, by decide⟩
  rw [decodeB40_sum]
  have h0 := foldl_msb_nat_aux input.toList h 0
  rw [Nat.cast_zero] at h0
  rw [h0]
  unfold bnToStringHex2 hexEvenPad base40Value
  rw [if_neg (by simp)]
  rw [Int.natAbs_ofNat]

theorem decodeB40_spec_witness :
    decodeB40 "10" = hexEvenPad (base40Value "10")
    ∧ decodeB40 "0" = "00" ∧ decodeB40 "10" = "28" :=
  decodeB40_spec "10" (by decide)

/-- C8 counterexample: `decodeB40 "100"` (value `40 ^ 2 = 1600 = 0x640`)
returns "0640" — bn.js pads the hex digits to an even count — and not
"640", the value zero-padded to at least two digits as the claim
states. -/
theorem decodeB40_c8_counterexample :
    decodeB40 "100" = "0640"
    ∧ decodeB40 "100" ≠ hexAtLeastTwo (base40Value "100") := by
  constructor
  · decide
  · decide

/-- The most-significant-digit-first value of any character list under
the source's indexOf digit values (`-1` for characters outside the
alphabet). -/
def jsB40Value (l : List Char) : Int :=
  l.foldl (fun a c => 40 * a + jsIndexOf b40Characters c) 0

/-- C4, amended: for EVERY input containing an out-of-alphabet character
— any such input decomposes as `s ++ c :: t` with `c` the character, `s`
and `t` arbitrary — `decodeB40` raises nothing and still returns a
decode string: the rendered value is the positional sum in which `c`
contributes exactly the coerced `indexOf` result `-1` at its place value
`40 ^ t.length`, between the surrounding characters' contributions. -/
theorem decodeB40_invalid_char (s t : List Char) (c : Char)
    (hc : c ∉ b40Characters.toList) :
    decodeB40 ⟨s ++ c :: t⟩
      = bnToStringHex2 (40 ^ (t.length + 1) * jsB40Value s
          + (-1) * 40 ^ t.length + jsB40Value t) := by
  rw [decodeB40_sum]
  congr 1
  show (s ++ c :: t).foldl (fun acc d => 40 * acc + jsIndexOf b40Characters d) 0
      = 40 ^ (t.length + 1) * jsB40Value s + (-1) * 40 ^ t.length + jsB40Value t
  unfold jsB40Value
  rw [List.foldl_append, List.foldl_cons, jsIndexOf_of_not_mem c hc]
  rw [foldl_msb_eq, foldl_msb_eq, foldl_msb_eq]
  ring

theorem decodeB40_invalid_char_witness :
    decodeB40 ⟨['a'] ++ '!' :: ['b']⟩
      = bnToStringHex2 (40 ^ (1 + 1) * jsB40Value ['a']
          + (-1) * 40 ^ 1 + jsB40Value ['b']) :=
  decodeB40_invalid_char ['a'] ['b'] '!' (by decide)

/-- C4 counterexample: on the input "!" — a character outside the
alphabet — the decoder raises no error and returns the string "-01",
which is exactly the bn.js rendering of the coerced digit value `-1`. -/
theorem decodeB40_c4_counterexample :
    jsIndexOf b40Characters '!' = -1
    ∧ decodeB40 "!" = "-01"
    ∧ decodeB40 "!" = bnToStringHex2 (-1) := by
  refine ⟨by decide, by decide, by decide⟩

/-! ### Signing driver (`signInputs`, lines 181-198 of the source) -/

/-- A TransactionSigner capability: an identifying tag (so invocation
traces can name the signer) plus the awaited `signTransaction(txB, i)`
operation, which may fail.  Awaiting is embedded by state passing: the
next signer runs on the transaction state the previous one completed. -/
structure Signer (ε : Type) where
  id : Nat
  signTransaction : Transaction → Nat → Except ε Transaction

/-- The driver's `for` loop over `(index, signer)` pairs: run each signer
on the current transaction, recording `(index, signer.id)` at each
invocation; stop at the first failure.  Returns the outcome and the
invocation trace. -/
def signLoop {ε : Type} : List (Nat × Signer ε) → Transaction →
    Except ε Transaction × List (Nat × Nat)
  | [], txB => (.ok txB, [])
  | (i, s) :: rest, txB =>
    match s.signTransaction txB i with
    | .error e => (.error e, [(i, s.id)])
    | .ok txB2 =>
      let r := signLoop rest txB2
      (r.1, (i, s.id) :: r.2)

/-- `signInputs` of the source: build `signerArray` holding the default
signer at every input index, overwrite the listed override indices (a
JavaScript assignment at an out-of-range index only grows the array
beyond the loop bound `ins.length`, so it is embedded as `List.set`,
which is a no-op out of range), then sign inputs `0 .. ins.length - 1`
in ascending order, one at a time. -/
def signInputs {ε : Type} (txB : Transaction) (defaultSigner : Signer ε)
    (otherSigners : List (Nat × Signer ε)) :
    Except ε Transaction × List (Nat × Nat) :=
  let signerArray := txB.ins.map (fun _ => defaultSigner)
  let assigned := otherSigners.foldl (fun arr p => arr.set p.1 p.2) signerArray
  signLoop assigned.enum txB

/-- The per-index signer assignment the spec describes: the default
signer everywhere, the override at each listed index (later entries
win). -/
def assignedSigner {ε : Type} (d : Signer ε) (os : List (Nat × Signer ε)) (i : Nat) :
    Signer ε :=
  os.foldl (fun acc p => if p.1 = i then p.2 else acc) d

/-- The spec-side sequential driver: starting at index `i` with `c`
indices left, invoke the assigned signer of each successive index on the
state the previous signer completed, recording each invocation; on a
failure, hand the error back unchanged and invoke nothing further. -/
def seqSign {ε : Type} (assign : Nat → Signer ε) (txB : Transaction) (i : Nat) :
    Nat → Except ε Transaction × List (Nat × Nat)
  | 0 => (.ok txB, [])
  | c + 1 =>
    match (assign i).signTransaction txB i with
    | .error e => (.error e, [(i, (assign i).id)])
    | .ok txB2 =>
      let r := seqSign assign txB2 (i + 1) c
      (r.1, (i, (assign i).id) :: r.2)

theorem signers_length {ε : Type} (os : List (Nat × Signer ε)) :
    ∀ (arr : List (Signer ε)),
      (os.foldl (fun arr p => arr.set p.1 p.2) arr).length = arr.length := by
  induction os with
  | nil => intro arr; rfl
  | cons p ps ih =>
    intro arr
    simp only [List.foldl_cons]
    rw [ih, List.length_set]

theorem foldl_set_getElem? {ε : Type} (os : List (Nat × Signer ε)) :
    ∀ (arr : List (Signer ε)) (i : Nat) (hi : i < arr.length),
      (os.foldl (fun arr p => arr.set p.1 p.2) arr)[i]?
        = some (os.foldl (fun acc p => if p.1 = i then p.2 else acc) (arr.get ⟨i, hi⟩)) := by
  induction os with
  | nil =>
    intro arr i hi
    simp [List.getElem?_eq_getElem hi]
  | cons p ps ih =>
    intro arr i hi
    simp only [List.foldl_cons]
    rw [ih (arr.set p.1 p.2) i (by rw [List.length_set]; exact hi)]
    congr 2
    simp only [List.get_eq_getElem, List.getElem_set]

theorem signLoop_enumFrom {ε : Type} :
    ∀ (arr : List (Signer ε)) (assign : Nat → Signer ε) (start : Nat) (txB : Transaction),
      (∀ (j : Nat) (h : j < arr.length), arr.get ⟨j, h⟩ = assign (start + j)) →
      signLoop (arr.enumFrom start) txB = seqSign assign txB start arr.length := by
  intro arr
  induction arr with
  | nil =>
    intro assign start txB h
    rfl
  | cons s ss ih =>
    intro assign start txB h
    have h0 : s = assign start := by
      have hg := h 0 (by simp)
      simpa using hg
    rw [List.enumFrom_cons]
    show signLoop ((start, s) :: ss.enumFrom (start + 1)) txB
      = seqSign assign txB start (ss.length + 1)
    simp only [signLoop, seqSign, ← h0]
    cases hsig : s.signTransaction txB start with
    | error e => rfl
    | ok txB2 =>
      have hrest : signLoop (ss.enumFrom (start + 1)) txB2
          = seqSign assign txB2 (start + 1) ss.length := by
        apply ih
        intro j hj
        have hg := h (j + 1) (by simpa using Nat.succ_lt_succ hj)
        simp only [List.get_eq_getElem, List.getElem_cons_succ] at hg
        rw [List.get_eq_getElem, hg]
        exact congrArg assign (by omega)
      simp only [hrest, h0]

/-- Trace shape of the spec-side driver: the invocations are exactly the
assigned signers of an initial run of `k` consecutive indices; `k` covers
every index on success, and on failure the last invoked signer produced
exactly the returned error. -/
theorem seqSign_trace {ε : Type} (assign : Nat → Signer ε) :
    ∀ (c : Nat) (txB : Transaction) (i : Nat),
      ∃ k, k ≤ c
        ∧ (seqSign assign txB i c).2
            = (List.range' i k).map (fun j => (j, (assign j).id))
        ∧ ((∃ t, (seqSign assign txB i c).1 = .ok t) → k = c)
        ∧ (∀ e, (seqSign assign txB i c).1 = .error e →
            0 < k ∧ ∃ s, (assign (i + k - 1)).signTransaction s (i + k - 1) = .error e) := by
  intro c
  induction c with
  | zero =>
    intro txB i
    exact ⟨0, Nat.le_refl 0, rfl, fun _ => rfl, fun e he => by simp [seqSign] at he⟩
  | succ c ih =>
    intro txB i
    cases hsig : (assign i).signTransaction txB i with
    | error e =>
      refine ⟨1, by omega, ?_, ?_, ?_⟩
      · simp [seqSign, hsig, List.range'_succ]
      · rintro ⟨t, ht⟩
        simp [seqSign, hsig] at ht
      · intro e2 he2
        simp only [seqSign, hsig] at he2
        have he3 : e = e2 := by simpa using he2
        subst he3
        exact ⟨by omega, txB, by simpa using hsig⟩
    | ok txB2 =>
      obtain ⟨k, hk, htr, hok, herr⟩ := ih txB2 (i + 1)
      refine ⟨k + 1, by omega, ?_, ?_, ?_⟩
      · simp only [seqSign, hsig, List.range'_succ, List.map_cons]
        rw [htr]
      · rintro ⟨t, ht⟩
        simp only [seqSign, hsig] at ht
        have := hok ⟨t, ht⟩
        omega
      · intro e he
        simp only [seqSign, hsig] at he
        obtain ⟨hk0, s, hs⟩ := herr e he
        refine ⟨by omega, s, ?_⟩
        have harg : i + 1 + k - 1 = i + (k + 1) - 1 := by omega
        rw [← harg]
        exact hs

/-! ### Claims C6 and C10 -/

/-- C6: `signInputs` is exactly the sequential driver over the per-index
assignment (the default signer at every index, the override at each
listed index): it invokes precisely the assigned signers for indices
`0 .. N-1` in strictly ascending order, each on the transaction state the
previous signer completed (state passing embeds "awaited to completion
before the next begins"); the invocation trace is the assigned signers of
the initial segment `0 .. k-1`, with `k = N` whenever the call succeeds,
and on failure the error of the last invoked signer is returned unchanged
with no later index invoked. -/
theorem signInputs_spec {ε : Type} (txB : Transaction) (d : Signer ε)
    (os : List (Nat × Signer ε)) :
    signInputs txB d os = seqSign (assignedSigner d os) txB 0 txB.ins.length
    ∧ ∃ k, k ≤ txB.ins.length
      ∧ (signInputs txB d os).2
          = (List.range k).map (fun i => (i, (assignedSigner d os i).id))
      ∧ ((∃ t, (signInputs txB d os).1 = .ok t) → k = txB.ins.length)
      ∧ (∀ e, (signInputs txB d os).1 = .error e →
          0 < k ∧ ∃ s, (assignedSigner d os (k - 1)).signTransaction s (k - 1)
            = .error e) := by
  have hmain : signInputs txB d os
      = seqSign (assignedSigner d os) txB 0 txB.ins.length := by
    have hlen : (os.foldl (fun arr p => arr.set p.1 p.2)
        (txB.ins.map (fun _ => d))).length = txB.ins.length := by
      rw [signers_length]
      exact List.length_map _ _
    have hcond : ∀ (j : Nat)
        (h : j < (os.foldl (fun arr p => arr.set p.1 p.2)
          (txB.ins.map (fun _ => d))).length),
        (os.foldl (fun arr p => arr.set p.1 p.2) (txB.ins.map (fun _ => d))).get ⟨j, h⟩
          = assignedSigner d os (0 + j) := by
      intro j hj
      have hj2 : j < (txB.ins.map (fun _ => d)).length := by
        rw [← signers_length os (txB.ins.map (fun _ => d))]
        exact hj
      have hq := foldl_set_getElem? os (txB.ins.map (fun _ => d)) j hj2
      rw [List.getElem?_eq_getElem hj] at hq
      have hd : (txB.ins.map (fun _ => d)).get ⟨j, hj2⟩ = d := by
        simp
      rw [hd] at hq
      have hAj := Option.some_inj.mp hq
      rw [List.get_eq_getElem, hAj, Nat.zero_add]
      rfl
    have hrun := signLoop_enumFrom
      (os.foldl (fun arr p => arr.set p.1 p.2) (txB.ins.map (fun _ => d)))
      (assignedSigner d os) 0 txB hcond
    show signLoop
        ((os.foldl (fun arr p => arr.set p.1 p.2) (txB.ins.map (fun _ => d))).enum) txB
      = _
    rw [show ((os.foldl (fun arr p => arr.set p.1 p.2)
        (txB.ins.map (fun _ => d))).enum)
      = ((os.foldl (fun arr p => arr.set p.1 p.2)
        (txB.ins.map (fun _ => d))).enumFrom 0) from rfl]
    rw [hrun, hlen]
  refine ⟨hmain, ?_⟩
  obtain ⟨k, hk, htr, hok, herr⟩ :=
    seqSign_trace (assignedSigner d os) txB.ins.length txB 0
  refine ⟨k, hk, ?_, ?_, ?_⟩
  · rw [hmain, htr, List.range_eq_range']
  · intro h
    rw [hmain] at h
    exact hok h
  · intro e he
    rw [hmain] at he
    have hout := herr e he
    simpa using hout

/-- C10: an override entry whose index lies outside `0 .. N-1` changes
nothing — the call behaves exactly as if the entry were absent (the
JavaScript assignment only grows `signerArray` beyond the loop bound),
so the remaining assignment still applies to every real input and the
out-of-range override's signer is never invoked; no error is raised. -/
theorem signInputs_out_of_range {ε : Type} (txB : Transaction) (d : Signer ε)
    (os1 os2 : List (Nat × Signer ε)) (j : Nat) (s : Signer ε)
    (hj : txB.ins.length ≤ j) :
    signInputs txB d (os1 ++ (j, s) :: os2) = signInputs txB d (os1 ++ os2) := by
  show signLoop
      (((os1 ++ (j, s) :: os2).foldl (fun arr p => arr.set p.1 p.2)
        (txB.ins.map (fun _ => d))).enum) txB
    = signLoop
      (((os1 ++ os2).foldl (fun arr p => arr.set p.1 p.2)
        (txB.ins.map (fun _ => d))).enum) txB
  have hlen : (os1.foldl (fun arr p => arr.set p.1 p.2)
      (txB.ins.map (fun _ => d))).length ≤ j := by
    rw [signers_length]
    simpa using hj
  rw [List.foldl_append, List.foldl_append, List.foldl_cons,
    List.set_eq_of_length_le hlen]

def sigDefault : Signer Unit := ⟨1, fun t _ => .ok t⟩

def sigOther : Signer Unit := ⟨2, fun t _ => .ok t⟩

theorem signInputs_out_of_range_witness :
    signInputs txOneIn sigDefault ([] ++ (5, sigOther) :: [])
      = signInputs txOneIn sigDefault ([] ++ []) :=
  signInputs_out_of_range txOneIn sigDefault [] [] 5 sigOther (by decide)

end StacksOps
